import Mathlib

/-!
Verification of the band-break exceedance engine and calendar helpers of the
TSF demand dashboard backend (`backend/routes/walmart_dashboard.py` and
`backend/routes/views.py`).

Modelling conventions:
* Calendar dates are modelled as integer day numbers (days since 1970-01-01);
  `days_from_civil` is the standard civil-calendar bijection used to name
  concrete dates.  The Python code only compares dates, steps them by whole
  days, and reads their weekday, so the day-number model is faithful.
* Numeric values (actuals, forecasts, confidence bounds) are modelled as `ℚ`;
  the Python code only compares them and converts them with `float`, which is
  the identity in this model.  SQL NULL / Python `None` is `Option.none`.
* Python's `sorted(..., key=...)` is a stable sort by key.  `keySort` below is
  a stable insertion sort by an integer key: it produces the unique ordering
  that is sorted by key and keeps the original relative order of equal keys
  (`keySort_stable` certifies both), hence it computes exactly what
  `sorted` computes.
-/

/-- One row fed to `get_band_breaks` (columns `date`, `value`, `ci85_low`,
`ci85_high`, `ci95_low`, `ci95_high`).  `to_date` in the source normalises the
date column; here dates are already day numbers. -/
structure Row where
  date : Int
  value : Option ℚ
  ci85_low : Option ℚ
  ci85_high : Option ℚ
  ci95_low : Option ℚ
  ci95_high : Option ℚ
deriving DecidableEq, Repr

/-- The `breaks` dictionary built by `get_band_breaks`. -/
structure Breaks where
  upper_85 : Nat
  upper_95 : Nat
  lower_85 : Nat
  lower_95 : Nat
  upper_85_consec : Nat
  lower_85_consec : Nat
  total_days : Nat
deriving DecidableEq, Repr

/-- Loop state of `get_band_breaks`: the `breaks` dict together with the two
local running counters `current_upper_consec` and `current_lower_consec`. -/
structure BreakState where
  breaks : Breaks
  current_upper_consec : Nat
  current_lower_consec : Nat
deriving DecidableEq, Repr

/-- `bound is not None and val > bound` (upper-bound breach test). -/
def hitHigh (bound : Option ℚ) (val : ℚ) : Bool :=
  match bound with
  | some hi => decide (hi < val)
  | none => false

/-- `bound is not None and val < bound` (lower-bound breach test). -/
def hitLow (bound : Option ℚ) (val : ℚ) : Bool :=
  match bound with
  | some lo => decide (val < lo)
  | none => false

/-- One iteration of the `for row in sorted_rows` loop of `get_band_breaks`
(lines 69–99): skip the row when `value` is `None`, otherwise bump
`total_days`, the four breach counts, and the two consecutive-streak
trackers. -/
def breakStep (s : BreakState) (r : Row) : BreakState :=
  match r.value with
  | none => s
  | some val =>
    let hitU85 := hitHigh r.ci85_high val
    let hitU95 := hitHigh r.ci95_high val
    let hitL85 := hitLow r.ci85_low val
    let hitL95 := hitLow r.ci95_low val
    let cu := if hitU85 then s.current_upper_consec + 1 else 0
    let cl := if hitL85 then s.current_lower_consec + 1 else 0
    { breaks :=
      { upper_85 := s.breaks.upper_85 + (if hitU85 then 1 else 0)
        upper_95 := s.breaks.upper_95 + (if hitU95 then 1 else 0)
        lower_85 := s.breaks.lower_85 + (if hitL85 then 1 else 0)
        lower_95 := s.breaks.lower_95 + (if hitL95 then 1 else 0)
        upper_85_consec :=
          if hitU85 then max s.breaks.upper_85_consec cu else s.breaks.upper_85_consec
        lower_85_consec :=
          if hitL85 then max s.breaks.lower_85_consec cl else s.breaks.lower_85_consec
        total_days := s.breaks.total_days + 1 }
      current_upper_consec := cu
      current_lower_consec := cl }

/-- The all-zero initial state (`breaks = {0,...}`, both counters 0). -/
def initState : BreakState :=
  { breaks :=
    { upper_85 := 0, upper_95 := 0, lower_85 := 0, lower_95 := 0
      upper_85_consec := 0, lower_85_consec := 0, total_days := 0 }
    current_upper_consec := 0
    current_lower_consec := 0 }

/-- Stable insertion by integer key: `r` goes before the first element whose
key is not strictly smaller than `r`'s. -/
def keyInsert (k : α → Int) (r : α) : List α → List α
  | [] => [r]
  | x :: xs => if k x < k r then x :: keyInsert k r xs else r :: x :: xs

/-- Stable sort by integer key; models Python's `sorted(l, key=k)`. -/
def keySort (k : α → Int) : List α → List α
  | [] => []
  | x :: xs => keyInsert k x (keySort k xs)

/-- `get_band_breaks(rows, week_date)` (lines 55–101): filter to rows dated on
or before the reference date, sort ascending by date, and fold the loop body
over the result, returning the `breaks` dict. -/
def get_band_breaks (rows : List Row) (week_date : Int) : Breaks :=
  (((keySort (fun r => r.date) (rows.filter (fun r => r.date ≤ week_date)))).foldl
      breakStep initState).breaks

/-- The all-zero report. -/
def zeroBreaks : Breaks :=
  { upper_85 := 0, upper_95 := 0, lower_85 := 0, lower_95 := 0
    upper_85_consec := 0, lower_85_consec := 0, total_days := 0 }

/-- One row of a chart query (`SELECT date, value as actual, fv as forecast,
ci85_low, ci85_high, ci95_low, ci95_high`). -/
structure ChartRow where
  date : Int
  actual : Option ℚ
  forecast : Option ℚ
  ci85_low : Option ℚ
  ci85_high : Option ℚ
  ci95_low : Option ℚ
  ci95_high : Option ℚ
deriving DecidableEq, Repr

/-- One chart point produced by the chart endpoints. -/
structure ChartPoint where
  date : Int
  actual : Option ℚ
  forecast : Option ℚ
  ci85_low : Option ℚ
  ci85_high : Option ℚ
  ci95_low : Option ℚ
  ci95_high : Option ℚ
deriving DecidableEq, Repr

/-- Python truthiness of an optional numeric: `None`, `0` and `0.0` are
falsy, every other number is truthy. -/
def pyTruthy : Option ℚ → Bool
  | none => false
  | some q => decide (q ≠ 0)

/-- The row-projection shared verbatim by `get_chart_location` (lines
339–347), `get_chart_department`, `get_chart_category` and `get_chart_sku`
(lines 518–526): `actual` is emitted only when `r['actual']` is truthy AND the
row's date is on or before the reference week; every other field is
independently `None`-propagated (`float` is the identity in this model). -/
def projectPoint (week_date : Int) (r : ChartRow) : ChartPoint :=
  { date := r.date
    actual := if pyTruthy r.actual ∧ r.date ≤ week_date then r.actual else none
    forecast := r.forecast
    ci85_low := r.ci85_low
    ci85_high := r.ci85_high
    ci95_low := r.ci95_low
    ci95_high := r.ci95_high }

/-- A chart endpoint's response body: one projected point per fetched row. -/
def chartPoints (week_date : Int) (rows : List ChartRow) : List ChartPoint :=
  rows.map (projectPoint week_date)

/-- One grouped SKU entry as assembled by the `defaultdict` in `get_skus`:
the SKU id with its `U` rows and `R` rows, in encounter order. -/
structure SkuEntry where
  sku_id : String
  unitsRows : List Row
  revenueRows : List Row

/-- One record of the `/api/walmart/skus` response. -/
structure SkuRecord where
  sku_id : String
  units : Breaks
  revenue : Breaks
deriving DecidableEq

/-- A response record still carrying the transient `_total_breaks` score. -/
structure RankedRecord where
  record : SkuRecord
  total_breaks : Nat
deriving DecidableEq

/-- The `_total_breaks` score of `get_skus` (lines 476–479):
`units.upper_85 + units.lower_85 + revenue.lower_85` — `revenue.upper_85` is
deliberately excluded. -/
def skuScore (units revenue : Breaks) : Nat :=
  units.upper_85 + units.lower_85 + revenue.lower_85

/-- Build one entry of `result` in `get_skus` (lines 473–485). -/
def buildRecord (week_date : Int) (e : SkuEntry) : RankedRecord :=
  let units_breaks := get_band_breaks e.unitsRows week_date
  let revenue_breaks := get_band_breaks e.revenueRows week_date
  { record := { sku_id := e.sku_id, units := units_breaks, revenue := revenue_breaks }
    total_breaks := skuScore units_breaks revenue_breaks }

/-- Python's `l[:n]` for an `int` n: nonnegative `n` takes the first `n`
elements, negative `n` drops the last `-n`. -/
def pySliceTo (n : Int) (l : List α) : List α :=
  if 0 ≤ n then l.take n.toNat else l.take ((l.length : Int) + n).toNat

/-- `get_skus` after grouping (lines 472–491): score each SKU, sort by
`-_total_breaks` (Python's stable `list.sort`), drop the transient score from
every record, and slice to `limit`. -/
def get_skus (entries : List SkuEntry) (week_date : Int) (limit : Int) :
    List SkuRecord :=
  let result := entries.map (buildRecord week_date)
  let result := keySort (fun x => -(x.total_breaks : Int)) result
  pySliceTo limit (result.map (fun x => x.record))

/-- A civil date as handled by `backend/routes/views.py` (`datetime.date`). -/
structure PyDate where
  year : Int
  month : Int
  day : Int
deriving DecidableEq, Repr

/-- `_ym_first(ym)` (views.py lines 46–49): the first day of a `"YYYY-MM"`
month, the string already split into its two integer fields. -/
def ym_first (y m : Int) : PyDate :=
  { year := y, month := m, day := 1 }

/-- `_add_months(d, n)` (views.py lines 51–55).  Python's floor division and
modulo coincide with `Int.ediv`/`Int.emod` for the positive divisor 12. -/
def add_months (d : PyDate) (n : Int) : PyDate :=
  { year := d.year + (d.month - 1 + n) / 12
    month := (d.month - 1 + n) % 12 + 1
    day := 1 }

/-- `_range_from_month_span(ym, span)` (views.py lines 57–61): clamp `span`
to {1,2,3} (anything else becomes 1), return `[start, stop)`. -/
def range_from_month_span (y m : Int) (span : Int) : PyDate × PyDate :=
  let span := if span = 1 ∨ span = 2 ∨ span = 3 then span else 1
  let start := ym_first y m
  (start, add_months start span)

/-- Day number (days since 1970-01-01) of a civil date, via the standard
era/year-of-era decomposition; used to name concrete dates in theorems. -/
def days_from_civil (y m d : Int) : Int :=
  let y' := if m ≤ 2 then y - 1 else y
  let era := y' / 400
  let yoe := y' - era * 400
  let mp := (m + 9) % 12
  let doy := (153 * mp + 2) / 5 + d - 1
  let doe := yoe * 365 + yoe / 4 - yoe / 100 + doy
  era * 146097 + doe - 719468

/-- Python's `date.weekday()` on a day number: Monday = 0 … Saturday = 5,
Sunday = 6 (1970-01-01 was a Thursday, weekday 3). -/
def pyWeekday (d : Int) : Int :=
  (d + 3) % 7

/-- `d` is a Saturday. -/
def isSaturday (d : Int) : Prop :=
  pyWeekday d = 5

instance (d : Int) : Decidable (isSaturday d) := by
  unfold isSaturday; infer_instance

/-- The `while current <= end` loop of `get_weeks_in_range` (lines 131–133):
emit `current` and step 7 days until past `e`. -/
def weeksFrom (current e : Int) : List Int :=
  if current ≤ e then current :: weeksFrom (current + 7) e else []
termination_by (e + 1 - current).toNat
decreasing_by omega

/-- `get_weeks_in_range(start_date, end_date)` (lines 113–135): advance to the
first Saturday on or after `s` (the `days_until_saturday == 0 and weekday !=
5` branch is kept although it can never fire), then collect every 7th day
through `e`. -/
def get_weeks_in_range (s e : Int) : List Int :=
  let days_until_saturday := (5 - pyWeekday s) % 7
  let days_until_saturday :=
    if days_until_saturday = 0 ∧ pyWeekday s ≠ 5 then 7 else days_until_saturday
  weeksFrom (s + days_until_saturday) e

/-- The sorted, index-tagged intermediate list of `get_skus`: `result` after
scoring, tagged with its encounter indices, sorted by `-_total_breaks`.
Dropping the tags recovers the list `get_skus` slices (see `C4_sku_ranking`). -/
def rankedSort (entries : List SkuEntry) (week_date : Int) :
    List (Nat × RankedRecord) :=
  keySort (fun q => -(q.2.total_breaks : Int)) (entries.map (buildRecord week_date)).enum

/-- A row whose actual value is absent. -/
def absentRow : Row :=
  { date := 0, value := none, ci85_low := none, ci85_high := none
    ci95_low := none, ci95_high := none }

/-- A data row with an actual and an 85% upper bound only. -/
def mkURow (d : Int) (v : ℚ) (hi : ℚ) : Row :=
  { date := d, value := some v, ci85_low := none, ci85_high := some hi
    ci95_low := none, ci95_high := none }

/-- A chart row whose stored actual is the number 0 on day 0. -/
def zeroActualRow : ChartRow :=
  { date := 0, actual := some 0, forecast := none, ci85_low := none
    ci85_high := none, ci95_low := none, ci95_high := none }

/-- A one-SKU input to `get_skus`. -/
def demoEntries : List SkuEntry :=
  [{ sku_id := "A", unitsRows := [mkURow 1 12 10], revenueRows := [] }]

/-- The running invariant of the loop of `get_band_breaks`: every breach
count is at most `total_days`, and each running/maximal streak is at most the
corresponding breach count. -/
def stateInv (s : BreakState) : Prop :=
  s.breaks.upper_85 ≤ s.breaks.total_days ∧
  s.breaks.upper_95 ≤ s.breaks.total_days ∧
  s.breaks.lower_85 ≤ s.breaks.total_days ∧
  s.breaks.lower_95 ≤ s.breaks.total_days ∧
  s.current_upper_consec ≤ s.breaks.upper_85 ∧
  s.breaks.upper_85_consec ≤ s.breaks.upper_85 ∧
  s.current_lower_consec ≤ s.breaks.lower_85 ∧
  s.breaks.lower_85_consec ≤ s.breaks.lower_85

/-- `s` dominates `t` in both streak trackers (maximal and running). -/
def streakGe (s t : BreakState) : Prop :=
  t.breaks.upper_85_consec ≤ s.breaks.upper_85_consec ∧
  t.current_upper_consec ≤ s.current_upper_consec ∧
  t.breaks.lower_85_consec ≤ s.breaks.lower_85_consec ∧
  t.current_lower_consec ≤ s.current_lower_consec

/-! ### Generic facts about the stable key sort -/

theorem keyInsert_perm (k : α → Int) (r : α) (l : List α) :
    (keyInsert k r l).Perm (r :: l) := by
  induction l with
  | nil => exact List.Perm.refl _
  | cons x xs ih =>
    simp only [keyInsert]
    split
    · exact (ih.cons x).trans (List.Perm.swap r x xs)
    · exact List.Perm.refl _

theorem keySort_perm (k : α → Int) (l : List α) : (keySort k l).Perm l := by
  induction l with
  | nil => exact List.Perm.refl _
  | cons x xs ih => exact (keyInsert_perm k x (keySort k xs)).trans (ih.cons x)

theorem mem_keyInsert {k : α → Int} {r b : α} {l : List α} :
    b ∈ keyInsert k r l ↔ b = r ∨ b ∈ l := by
  rw [(keyInsert_perm k r l).mem_iff, List.mem_cons]

/-- Inserting below every key of `l` just conses. -/
theorem keyInsert_eq_cons {k : α → Int} {r : α} {l : List α}
    (h : ∀ b ∈ l, ¬ k b < k r) : keyInsert k r l = r :: l := by
  cases l with
  | nil => rfl
  | cons x xs => simp only [keyInsert, if_neg (h x (List.mem_cons_self x xs))]

/-- Combined sortedness-and-stability: inserting an element that `P`-precedes
everything in a sorted-and-stable list keeps the list sorted and stable. -/
theorem keyInsert_stable (k : α → Int) (P : α → α → Prop) (r : α) {l : List α}
    (hl : l.Pairwise (fun a b => k a ≤ k b ∧ (k a = k b → P a b)))
    (hr : ∀ x ∈ l, P r x) :
    (keyInsert k r l).Pairwise (fun a b => k a ≤ k b ∧ (k a = k b → P a b)) := by
  induction l with
  | nil => simp [keyInsert]
  | cons x xs ih =>
    rw [List.pairwise_cons] at hl
    simp only [keyInsert]
    split
    · rename_i hx
      refine List.pairwise_cons.2 ⟨?_, ih hl.2 fun b hb => hr b (List.mem_cons_of_mem x hb)⟩
      intro b hb
      rcases mem_keyInsert.1 hb with hb | hb
      · subst hb; exact ⟨le_of_lt hx, fun h => absurd h (ne_of_lt hx)⟩
      · exact hl.1 b hb
    · rename_i hx
      rw [not_lt] at hx
      refine List.pairwise_cons.2 ⟨?_, List.pairwise_cons.2 ⟨hl.1, hl.2⟩⟩
      intro b hb
      rcases List.mem_cons.1 hb with hb | hb
      · subst hb; exact ⟨hx, fun _ => hr b (List.mem_cons_self b xs)⟩
      · exact ⟨le_trans hx (hl.1 b hb).1,
          fun _ => hr b (List.mem_cons_of_mem x hb)⟩

/-- `keySort` sorts by the key and, on equal keys, keeps every relation that
held pairwise in the input order (stability). -/
theorem keySort_stable (k : α → Int) (P : α → α → Prop) {l : List α}
    (hl : l.Pairwise P) :
    (keySort k l).Pairwise (fun a b => k a ≤ k b ∧ (k a = k b → P a b)) := by
  induction l with
  | nil => simp [keySort]
  | cons x xs ih =>
    rw [List.pairwise_cons] at hl
    exact keyInsert_stable k P x (ih hl.2)
      fun b hb => hl.1 b ((keySort_perm k xs).subset hb)

theorem keySort_sorted (k : α → Int) (l : List α) :
    (keySort k l).Pairwise (fun a b => k a ≤ k b) := by
  have : l.Pairwise (fun _ _ => True) := by induction l <;> simp [*]
  exact (keySort_stable k _ this).imp fun h => h.1

theorem keyInsert_append {k : α → Int} (r : α) (l₁ l₂ : List α)
    (h : ∀ b ∈ l₂, k r < k b) :
    keyInsert k r (l₁ ++ l₂) = keyInsert k r l₁ ++ l₂ := by
  induction l₁ with
  | nil =>
    simp only [List.nil_append, keyInsert]
    exact keyInsert_eq_cons fun b hb => not_lt.2 (le_of_lt (h b hb))
  | cons x xs ih =>
    simp only [List.cons_append, keyInsert, List.append_eq]
    split
    · rw [ih]; rfl
    · rfl

/-- Sorting a concatenation whose left part has strictly smaller keys than its
right part sorts the parts independently. -/
theorem keySort_append {k : α → Int} (l₁ l₂ : List α)
    (h : ∀ a ∈ l₁, ∀ b ∈ l₂, k a < k b) :
    keySort k (l₁ ++ l₂) = keySort k l₁ ++ keySort k l₂ := by
  induction l₁ with
  | nil => simp [keySort]
  | cons x xs ih =>
    simp only [List.cons_append, keySort, List.append_eq]
    rw [ih fun a ha b hb => h a (List.mem_cons_of_mem x ha) b hb,
      keyInsert_append x _ _
        fun b hb => h x (List.mem_cons_self x xs) b ((keySort_perm k l₂).subset hb)]

theorem filter_keyInsert_pos {k : α → Int} (p : α → Bool) (r : α) {l : List α}
    (hl : l.Pairwise (fun a b => k a ≤ k b)) (hr : p r = true) :
    (keyInsert k r l).filter p = keyInsert k r (l.filter p) := by
  induction l with
  | nil => simp [keyInsert, hr]
  | cons x xs ih =>
    rw [List.pairwise_cons] at hl
    simp only [keyInsert]
    split
    · rename_i hx
      cases hpx : p x with
      | true =>
        rw [List.filter_cons_of_pos hpx, List.filter_cons_of_pos hpx,
          ih hl.2]
        simp only [keyInsert, if_pos hx]
      | false =>
        rw [List.filter_cons_of_neg (by simp [hpx]),
          List.filter_cons_of_neg (by simp [hpx]), ih hl.2]
    · rename_i hx
      rw [List.filter_cons_of_pos hr]
      refine (keyInsert_eq_cons fun b hb => ?_).symm
      have hb' : b ∈ x :: xs := List.mem_of_mem_filter hb
      rcases List.mem_cons.1 hb' with hb' | hb'
      · subst hb'; exact hx
      · exact fun hc => hx (lt_of_le_of_lt (hl.1 b hb') hc)

theorem filter_keyInsert_neg {k : α → Int} (p : α → Bool) (r : α) (l : List α)
    (hr : p r = false) :
    (keyInsert k r l).filter p = l.filter p := by
  induction l with
  | nil => simp [keyInsert, hr]
  | cons x xs ih =>
    simp only [keyInsert]
    split
    · cases hpx : p x with
      | true => rw [List.filter_cons_of_pos hpx, List.filter_cons_of_pos hpx, ih]
      | false =>
        rw [List.filter_cons_of_neg (by simp [hpx]),
          List.filter_cons_of_neg (by simp [hpx]), ih]
    · rw [List.filter_cons_of_neg (by simp [hr])]

/-- Filtering commutes with the stable sort (filtering keeps relative order,
so sorting before or after filtering agree). -/
theorem keySort_filter (k : α → Int) (p : α → Bool) (l : List α) :
    keySort k (l.filter p) = (keySort k l).filter p := by
  induction l with
  | nil => rfl
  | cons x xs ih =>
    simp only [keySort]
    cases hpx : p x with
    | true =>
      rw [List.filter_cons_of_pos hpx]
      simp only [keySort]
      rw [ih, filter_keyInsert_pos p x (keySort_sorted k xs) hpx]
    | false =>
      rw [List.filter_cons_of_neg (by simp [hpx]), ih,
        filter_keyInsert_neg p x _ hpx]

/-- On series with pairwise distinct keys, the sort is a function of the
multiset of elements: any permutation sorts to the same list. -/
theorem keySort_eq_of_perm {k : α → Int} {l₁ l₂ : List α} (hp : l₁.Perm l₂)
    (hnd : (l₁.map k).Nodup) : keySort k l₁ = keySort k l₂ := by
  have hperm : (keySort k l₁).Perm (keySort k l₂) :=
    ((keySort_perm k l₁).trans hp).trans (keySort_perm k l₂).symm
  have hnd₁ : ((keySort k l₁).map k).Nodup :=
    (((keySort_perm k l₁).map k).nodup_iff).2 hnd
  have hnd₂ : ((keySort k l₂).map k).Nodup :=
    ((hperm.map k).nodup_iff).1 hnd₁
  have hstrict : ∀ m : List α, (m.map k).Nodup →
      m.Pairwise (fun a b => k a ≤ k b) → m.Pairwise (fun a b => k a < k b) :=
    fun m hm hs =>
      ((hs.and (List.pairwise_map.1 hm)).imp fun h => lt_of_le_of_ne h.1 h.2)
  haveI : IsAntisymm α (fun a b => k a < k b) :=
    ⟨fun _ _ h₁ h₂ => absurd h₁ (lt_asymm h₂)⟩
  exact List.eq_of_perm_of_sorted hperm
    (hstrict _ hnd₁ (keySort_sorted k l₁)) (hstrict _ hnd₂ (keySort_sorted k l₂))

theorem keyInsert_map_snd {β : Type _} (k : β → Int) (q : Nat × β)
    (l : List (Nat × β)) :
    (keyInsert (fun q => k q.2) q l).map Prod.snd =
      keyInsert k q.2 (l.map Prod.snd) := by
  induction l with
  | nil => rfl
  | cons x xs ih =>
    simp only [keyInsert, List.map_cons]
    split
    · rename_i hx
      rw [List.map_cons, ih]
    · rename_i hx
      simp only [keyInsert, if_neg hx, List.map_cons]

/-- Sorting index-tagged elements by the key of the payload and then dropping
the tags is sorting the payloads. -/
theorem keySort_map_snd {β : Type _} (k : β → Int) (l : List (Nat × β)) :
    (keySort (fun q => k q.2) l).map Prod.snd = keySort k (l.map Prod.snd) := by
  induction l with
  | nil => rfl
  | cons x xs ih =>
    simp only [keySort, List.map_cons]
    rw [keyInsert_map_snd, ih]

theorem le_fst_of_mem_enumFrom {β : Type _} {n : Nat} {l : List β}
    {q : Nat × β} (hq : q ∈ List.enumFrom n l) : n ≤ q.1 := by
  induction l generalizing n with
  | nil => simp [List.enumFrom] at hq
  | cons x xs ih =>
    rcases List.mem_cons.1 hq with h | h
    · subst h; exact le_refl n
    · exact le_trans (Nat.le_succ n) (ih h)

/-- Indices in an enumeration are strictly increasing. -/
theorem pairwise_fst_lt_enumFrom {β : Type _} (n : Nat) (l : List β) :
    (List.enumFrom n l).Pairwise (fun a b => a.1 < b.1) := by
  induction l generalizing n with
  | nil => exact List.Pairwise.nil
  | cons x xs ih =>
    refine List.pairwise_cons.2 ⟨fun q hq => ?_, ih (n + 1)⟩
    exact lt_of_lt_of_le (Nat.lt_succ_self n) (le_fst_of_mem_enumFrom hq)

theorem pairwise_fst_lt_enum {β : Type _} (l : List β) :
    l.enum.Pairwise (fun a b => a.1 < b.1) :=
  pairwise_fst_lt_enumFrom 0 l

/-! ### Facts about the exceedance fold -/

theorem breakStep_none {r : Row} (s : BreakState) (h : r.value = none) :
    breakStep s r = s := by
  simp [breakStep, h]

/-- Rows with an absent actual are invisible to the fold. -/
theorem foldl_breakStep_filter_value (l : List Row) (s : BreakState) :
    (l.filter (fun r => r.value.isSome)).foldl breakStep s = l.foldl breakStep s := by
  induction l generalizing s with
  | nil => rfl
  | cons r rs ih =>
    cases hv : r.value with
    | none =>
      rw [List.filter_cons_of_neg (by simp [hv]), List.foldl_cons,
        breakStep_none s hv, ih]
    | some v =>
      rw [List.filter_cons_of_pos (by simp [hv]), List.foldl_cons,
        List.foldl_cons, ih]

theorem stateInv_init : stateInv initState := by
  simp [stateInv, initState]

theorem breakStep_inv {s : BreakState} (r : Row) (h : stateInv s) :
    stateInv (breakStep s r) := by
  cases hv : r.value with
  | none => rwa [breakStep_none s hv]
  | some v =>
    rcases h with ⟨h₁, h₂, h₃, h₄, h₅, h₆, h₇, h₈⟩
    simp only [breakStep, hv, stateInv]
    cases hU : hitHigh r.ci85_high v <;> cases hL : hitLow r.ci85_low v <;>
      cases hU95 : hitHigh r.ci95_high v <;> cases hL95 : hitLow r.ci95_low v <;>
        simp only [Bool.false_eq_true, if_true, if_false, ite_true, ite_false] <;>
          refine ⟨?_, ?_, ?_, ?_, ?_, ?_, ?_, ?_⟩ <;> omega

theorem foldl_breakStep_inv (l : List Row) {s : BreakState} (h : stateInv s) :
    stateInv (l.foldl breakStep s) := by
  induction l generalizing s with
  | nil => exact h
  | cons r rs ih => exact ih (breakStep_inv r h)

theorem streakGe_init (s : BreakState) : streakGe s initState := by
  simp [streakGe, initState]

/-- Processing the same row preserves streak domination: the loop body's
effect on the streak trackers is monotone in the incoming state. -/
theorem breakStep_streakGe {s t : BreakState} (r : Row) (h : streakGe s t) :
    streakGe (breakStep s r) (breakStep t r) := by
  cases hv : r.value with
  | none => rwa [breakStep_none s hv, breakStep_none t hv]
  | some v =>
    rcases h with ⟨h₁, h₂, h₃, h₄⟩
    simp only [breakStep, hv, streakGe]
    cases hU : hitHigh r.ci85_high v <;> cases hL : hitLow r.ci85_low v <;>
      simp only [Bool.false_eq_true, if_true, if_false, ite_true, ite_false] <;>
        refine ⟨?_, ?_, ?_, ?_⟩ <;> omega

theorem foldl_breakStep_streakGe (l : List Row) {s t : BreakState}
    (h : streakGe s t) : streakGe (l.foldl breakStep s) (l.foldl breakStep t) := by
  induction l generalizing s t with
  | nil => exact h
  | cons r rs ih => exact ih (breakStep_streakGe r h)

/-! ### Facts about the calendar helpers -/

theorem weeksFrom_eq (c e : Int) :
    weeksFrom c e = if c ≤ e then c :: weeksFrom (c + 7) e else [] := by
  rw [weeksFrom]

/-- The loop emits exactly the dates in `[c, e]` congruent to `c` mod 7. -/
theorem mem_weeksFrom (c e x : Int) :
    x ∈ weeksFrom c e ↔ c ≤ x ∧ x ≤ e ∧ (x - c) % 7 = 0 := by
  generalize hn : (e + 1 - c).toNat = n
  induction n using Nat.strong_induction_on generalizing c with
  | _ n ih =>
    rw [weeksFrom_eq]
    split
    · rename_i hce
      rw [List.mem_cons, ih ((e + 1 - (c + 7)).toNat) (by omega) (c + 7) rfl]
      omega
    · rename_i hce
      simp only [List.not_mem_nil, false_iff]
      omega

theorem weeksFrom_pairwise_lt (c e : Int) :
    (weeksFrom c e).Pairwise (fun a b => a < b) := by
  generalize hn : (e + 1 - c).toNat = n
  induction n using Nat.strong_induction_on generalizing c with
  | _ n ih =>
    rw [weeksFrom_eq]
    split
    · rename_i hce
      refine List.pairwise_cons.2 ⟨fun b hb => ?_,
        ih ((e + 1 - (c + 7)).toNat) (by omega) (c + 7) rfl⟩
      have := (mem_weeksFrom (c + 7) e b).1 hb
      omega
    · exact List.Pairwise.nil

/-! ### The claims -/

/-- C1: a point whose actual is absent is skipped entirely by
`get_band_breaks`: the loop body leaves the whole state (counts, streak
maxima, and both running streak counters) untouched, and consequently the
report equals the report of the series with all absent-actual points
removed. -/
theorem C1_absent_actual_skipped :
    (∀ (s : BreakState) (r : Row), r.value = none → breakStep s r = s) ∧
    (∀ (rows : List Row) (week_date : Int),
      get_band_breaks rows week_date =
        get_band_breaks (rows.filter (fun r => r.value.isSome)) week_date) := by
  refine ⟨fun s r h => breakStep_none s h, fun rows week => ?_⟩
  have hcomm :
      (rows.filter (fun r => r.value.isSome)).filter (fun r => r.date ≤ week) =
        (rows.filter (fun r => r.date ≤ week)).filter (fun r => r.value.isSome) := by
    rw [List.filter_filter, List.filter_filter]
    congr 1
    funext r
    exact Bool.and_comm _ _
  have hks :
      keySort (fun r => r.date)
          ((rows.filter (fun r => r.date ≤ week)).filter (fun r => r.value.isSome)) =
        (keySort (fun r => r.date) (rows.filter (fun r => r.date ≤ week))).filter
          (fun r => r.value.isSome) :=
    keySort_filter _ _ _
  unfold get_band_breaks
  rw [hcomm, hks, foldl_breakStep_filter_value]

/-- Witness for C1 at a concrete absent-actual row. -/
theorem C1_witness :
    breakStep initState absentRow = initState ∧
    get_band_breaks [absentRow] 0 = get_band_breaks [] 0 := by
  refine ⟨C1_absent_actual_skipped.1 initState absentRow rfl, ?_⟩
  have h := C1_absent_actual_skipped.2 [absentRow] 0
  rwa [show [absentRow].filter (fun r => r.value.isSome) = [] from rfl] at h

/-- C5: on the series 12, 9, 11 against `ci85_high = 10` the engine reports
`upper_85 = 2` with longest streak 1; on 12, 13, 9 it reports `upper_85 = 2`
with longest streak 2. -/
theorem C5_concrete_scenarios :
    (get_band_breaks [mkURow 1 12 10, mkURow 2 9 10, mkURow 3 11 10] 3).upper_85 = 2 ∧
    (get_band_breaks [mkURow 1 12 10, mkURow 2 9 10, mkURow 3 11 10] 3).upper_85_consec = 1 ∧
    (get_band_breaks [mkURow 1 12 10, mkURow 2 13 10, mkURow 3 9 10] 3).upper_85 = 2 ∧
    (get_band_breaks [mkURow 1 12 10, mkURow 2 13 10, mkURow 3 9 10] 3).upper_85_consec = 2 := by
  decide

/-- C9: `get_band_breaks` is a total function (it is defined for every list
of rows, whatever subset of the fields is absent), and both on the empty
series and on any series with no point dated on or before the reference date
it returns the all-zero report. -/
theorem C9_total_zero_on_empty :
    (∀ week_date : Int, get_band_breaks [] week_date = zeroBreaks) ∧
    (∀ (rows : List Row) (week_date : Int), (∀ r ∈ rows, week_date < r.date) →
      get_band_breaks rows week_date = zeroBreaks) := by
  refine ⟨fun _ => rfl, fun rows week h => ?_⟩
  unfold get_band_breaks
  rw [List.filter_eq_nil_iff.2 fun r hr => by
    simp only [decide_eq_true_eq, not_le]
    exact h r hr]
  rfl

/-- Witness for C9 on a one-point series dated after the reference date. -/
theorem C9_witness : get_band_breaks [mkURow 5 12 10] 0 = zeroBreaks :=
  C9_total_zero_on_empty.2 [mkURow 5 12 10] 0 (by decide)

/-- C10: every count and streak field of the report is at most `total_days`:
`total_days` is incremented on every counted day and each other field grows
by at most one per counted day. -/
theorem C10_fields_le_total_days (rows : List Row) (week_date : Int) :
    (get_band_breaks rows week_date).upper_85 ≤ (get_band_breaks rows week_date).total_days ∧
    (get_band_breaks rows week_date).upper_95 ≤ (get_band_breaks rows week_date).total_days ∧
    (get_band_breaks rows week_date).lower_85 ≤ (get_band_breaks rows week_date).total_days ∧
    (get_band_breaks rows week_date).lower_95 ≤ (get_band_breaks rows week_date).total_days ∧
    (get_band_breaks rows week_date).upper_85_consec ≤ (get_band_breaks rows week_date).total_days ∧
    (get_band_breaks rows week_date).lower_85_consec ≤ (get_band_breaks rows week_date).total_days := by
  have h := foldl_breakStep_inv
    (keySort (fun r => r.date) (rows.filter (fun r => r.date ≤ week_date))) stateInv_init
  rcases h with ⟨h₁, h₂, h₃, h₄, _, h₆, _, h₈⟩
  unfold get_band_breaks
  exact ⟨h₁, h₂, h₃, h₄, le_trans h₆ h₁, le_trans h₈ h₃⟩

/-- C3: the longest-streak fields never exceed the corresponding breach
counts, and prepending strictly older points to the series (holding the
reference date fixed) never decreases either longest-streak field. -/
theorem C3_streak_bounds_and_monotone (rows older : List Row) (week_date : Int)
    (hsep : ∀ a ∈ older, ∀ b ∈ rows, a.date < b.date) :
    ((get_band_breaks rows week_date).upper_85_consec ≤
        (get_band_breaks rows week_date).upper_85 ∧
      (get_band_breaks rows week_date).lower_85_consec ≤
        (get_band_breaks rows week_date).lower_85) ∧
    ((get_band_breaks rows week_date).upper_85_consec ≤
        (get_band_breaks (older ++ rows) week_date).upper_85_consec ∧
      (get_band_breaks rows week_date).lower_85_consec ≤
        (get_band_breaks (older ++ rows) week_date).lower_85_consec) := by
  constructor
  · have h := foldl_breakStep_inv
      (keySort (fun r => r.date) (rows.filter (fun r => r.date ≤ week_date))) stateInv_init
    rcases h with ⟨-, -, -, -, -, h₆, -, h₈⟩
    exact ⟨h₆, h₈⟩
  · have hsplit :
        keySort (fun r => r.date) ((older ++ rows).filter (fun r => r.date ≤ week_date)) =
          keySort (fun r => r.date) (older.filter (fun r => r.date ≤ week_date)) ++
            keySort (fun r => r.date) (rows.filter (fun r => r.date ≤ week_date)) := by
      rw [List.filter_append]
      exact keySort_append _ _ fun a ha b hb =>
        hsep a (List.mem_of_mem_filter ha) b (List.mem_of_mem_filter hb)
    unfold get_band_breaks
    rw [hsplit, List.foldl_append]
    have hmono := foldl_breakStep_streakGe
      (keySort (fun r => r.date) (rows.filter (fun r => r.date ≤ week_date)))
      (streakGe_init (List.foldl breakStep initState
        (keySort (fun r => r.date) (older.filter (fun r => r.date ≤ week_date)))))
    exact ⟨hmono.1, hmono.2.2.1⟩

/-- Witness for C3: one strictly older breaching point prepended to a
one-point breaching series. -/
theorem C3_witness :
    (get_band_breaks [mkURow 2 12 10] 2).upper_85_consec ≤
        (get_band_breaks [mkURow 2 12 10] 2).upper_85 ∧
    (get_band_breaks [mkURow 2 12 10] 2).upper_85_consec ≤
        (get_band_breaks ([mkURow 1 13 10] ++ [mkURow 2 12 10]) 2).upper_85_consec := by
  have h := C3_streak_bounds_and_monotone [mkURow 2 12 10] [mkURow 1 13 10] 2 (by decide)
  exact ⟨h.1.1, h.2.1⟩

/-- C6: on a series with pairwise distinct dates, the report is a function of
the set of points and the reference date alone — any permutation of the input
evaluates to the identical report. -/
theorem C6_permutation_invariant (rows₁ rows₂ : List Row) (week_date : Int)
    (hperm : rows₁.Perm rows₂) (hnd : (rows₁.map (fun r => r.date)).Nodup) :
    get_band_breaks rows₁ week_date = get_band_breaks rows₂ week_date := by
  unfold get_band_breaks
  rw [keySort_eq_of_perm (hperm.filter (fun r => r.date ≤ week_date))
    (hnd.sublist ((List.filter_sublist rows₁).map (fun r => r.date)))]

/-- Witness for C6: a two-point series and its reversal. -/
theorem C6_witness :
    get_band_breaks [mkURow 1 12 10, mkURow 2 9 10] 2 =
      get_band_breaks [mkURow 2 9 10, mkURow 1 12 10] 2 :=
  C6_permutation_invariant _ _ 2 (List.Perm.swap (mkURow 2 9 10) (mkURow 1 12 10) [])
    (by decide)

/-- C2 (counterexample to the claim as stated): a stored actual equal to 0 on
a date on or before the reference date is emitted as `none`, not as the
numeric value 0 — the projection tests Python truthiness of the actual, not
its presence. -/
theorem C2_counterexample_zero_actual :
    zeroActualRow.actual = some 0 ∧ zeroActualRow.date ≤ 0 ∧
    (projectPoint 0 zeroActualRow).actual ≠ some 0 := by
  decide

/-- C2 (amended): the projected `actual` is null exactly when the input
actual is absent, OR the input actual equals 0, OR the row's date is strictly
after the reference date; in every other case it equals the numeric actual
value. -/
theorem C2_actual_nulling (week_date : Int) (r : ChartRow) :
    ((projectPoint week_date r).actual = none ↔
      (r.actual = none ∨ r.actual = some 0 ∨ week_date < r.date)) ∧
    (∀ q : ℚ, r.actual = some q → q ≠ 0 → r.date ≤ week_date →
      (projectPoint week_date r).actual = some q) := by
  constructor
  · simp only [projectPoint, pyTruthy]
    cases hr : r.actual with
    | none => simp
    | some q =>
      by_cases hq : q = 0
      · subst hq; simp
      · by_cases hd : r.date ≤ week_date
        · simp [hq, hd]
        · simp [hq, hd]
          omega
  · intro q hq hq0 hd
    simp [projectPoint, pyTruthy, hq, hq0, hd]

/-- Witness for C2's amended statement: a nonzero actual on a date before the
reference date passes through unchanged. -/
theorem C2_witness :
    (projectPoint 1 (ChartRow.mk 0 (some 5) none none none none none)).actual = some 5 :=
  (C2_actual_nulling 1 (ChartRow.mk 0 (some 5) none none none none none)).2 5 rfl
    (by norm_num) (by norm_num)

/-- C7: `range_from_month_span` starts at the first day of the given month;
a span outside {1,2,3} is replaced by 1; the stop bound is the start advanced
by the (clamped) span of calendar months with year rollover; and the two
concrete examples of the spec hold. -/
theorem C7_month_span_range (y m span : Int) (hm₁ : 1 ≤ m) (hm₂ : m ≤ 12) :
    (¬(span = 1 ∨ span = 2 ∨ span = 3) →
      range_from_month_span y m span = range_from_month_span y m 1) ∧
    ((span = 1 ∨ span = 2 ∨ span = 3) →
      range_from_month_span y m span =
        (PyDate.mk y m 1,
          if m + span ≤ 12 then PyDate.mk y (m + span) 1
          else PyDate.mk (y + 1) (m + span - 12) 1)) ∧
    range_from_month_span 2024 2 1 = (PyDate.mk 2024 2 1, PyDate.mk 2024 3 1) ∧
    range_from_month_span 2024 11 3 = (PyDate.mk 2024 11 1, PyDate.mk 2025 2 1) := by
  refine ⟨fun h => ?_, fun h => ?_, by decide, by decide⟩
  · simp [range_from_month_span, if_neg h]
  · simp only [range_from_month_span, if_pos h, ym_first, add_months]
    split
    · rename_i hle
      have h1 : y + (m - 1 + span) / 12 = y := by omega
      have h2 : (m - 1 + span) % 12 + 1 = m + span := by omega
      rw [h1, h2]
    · rename_i hgt
      have h1 : y + (m - 1 + span) / 12 = y + 1 := by omega
      have h2 : (m - 1 + span) % 12 + 1 = m + span - 12 := by omega
      rw [h1, h2]

/-- Witness for C7 at the spec's three-month example. -/
theorem C7_witness :
    range_from_month_span 2024 11 3 = (PyDate.mk 2024 11 1, PyDate.mk 2025 2 1) :=
  (C7_month_span_range 2024 11 3 (by decide) (by decide)).2.2.2

/-- C8: for `s ≤ e`, `get_weeks_in_range` returns exactly the ascending
Saturdays between `s` and `e` inclusive (the first Saturday on or after `s`,
then every 7th day), and the spec's concrete example holds. -/
theorem C8_weeks_in_range (s e : Int) (hse : s ≤ e) :
    (∀ x : Int, x ∈ get_weeks_in_range s e ↔ s ≤ x ∧ x ≤ e ∧ isSaturday x) ∧
    (get_weeks_in_range s e).Pairwise (fun a b => a < b) ∧
    get_weeks_in_range (days_from_civil 2024 1 1) (days_from_civil 2024 1 20) =
      [days_from_civil 2024 1 6, days_from_civil 2024 1 13,
        days_from_civil 2024 1 20] := by
  have hdead : ¬((5 - pyWeekday s) % 7 = 0 ∧ pyWeekday s ≠ 5) := by
    unfold pyWeekday
    omega
  refine ⟨fun x => ?_, ?_, ?_⟩
  · simp only [get_weeks_in_range]
    rw [if_neg hdead, mem_weeksFrom]
    unfold isSaturday pyWeekday
    omega
  · simp only [get_weeks_in_range]
    exact weeksFrom_pairwise_lt _ _
  · have h1 : days_from_civil 2024 1 1 = 19723 := by decide
    have h6 : days_from_civil 2024 1 6 = 19728 := by decide
    have h13 : days_from_civil 2024 1 13 = 19735 := by decide
    have h20 : days_from_civil 2024 1 20 = 19742 := by decide
    rw [h1, h6, h13, h20]
    simp only [get_weeks_in_range, pyWeekday]
    norm_num
    rw [weeksFrom_eq]
    norm_num
    rw [weeksFrom_eq]
    norm_num
    rw [weeksFrom_eq]
    norm_num
    rw [weeksFrom_eq]
    norm_num

/-- Witness for C8: 2024-01-13 is one of the Saturdays listed for the window
2024-01-01 … 2024-01-20. -/
theorem C8_witness :
    (19735 : Int) ∈ get_weeks_in_range 19723 19742 :=
  ((C8_weeks_in_range 19723 19742 (by decide)).1 19735).2
    ⟨by decide, by decide, by decide⟩

/-- C4: `get_skus` scores each SKU by `units.upper_85 + units.lower_85 +
revenue.lower_85` (`revenue.upper_85` excluded), returns the records sorted
descending by that score with ties in input-encounter order (the
index-tagged sorted list `rankedSort` is a permutation of the enumerated
input, descending in score, with strictly increasing indices on equal
scores), truncates to the requested limit, and drops the transient score:
the response holds only the score-free `SkuRecord` projections. -/
theorem C4_sku_ranking (entries : List SkuEntry) (week_date limit : Int)
    (hlim : 0 ≤ limit) :
    (rankedSort entries week_date).Perm (entries.map (buildRecord week_date)).enum ∧
    (rankedSort entries week_date).Pairwise
      (fun a b => b.2.total_breaks ≤ a.2.total_breaks) ∧
    (rankedSort entries week_date).Pairwise
      (fun a b => a.2.total_breaks = b.2.total_breaks → a.1 < b.1) ∧
    (∀ p ∈ rankedSort entries week_date,
      p.2.total_breaks = skuScore p.2.record.units p.2.record.revenue) ∧
    get_skus entries week_date limit =
      (((rankedSort entries week_date).map Prod.snd).map
        (fun x => x.record)).take limit.toNat := by
  have hstable := keySort_stable (fun q : Nat × RankedRecord => -(q.2.total_breaks : Int))
    (fun a b => a.1 < b.1) (pairwise_fst_lt_enum (entries.map (buildRecord week_date)))
  refine ⟨keySort_perm _ _, ?_, ?_, ?_, ?_⟩
  · refine hstable.imp fun {a b} h => ?_
    have h1 : -(a.2.total_breaks : Int) ≤ -(b.2.total_breaks : Int) := h.1
    omega
  · refine hstable.imp fun {a b} h heq => h.2 ?_
    show -(a.2.total_breaks : Int) = -(b.2.total_breaks : Int)
    rw [heq]
  · intro p hp
    have hp' : p.2 ∈ entries.map (buildRecord week_date) := by
      have hmem : p ∈ (entries.map (buildRecord week_date)).enum :=
        (keySort_perm _ _).subset hp
      have := List.mem_map_of_mem Prod.snd hmem
      rwa [List.enum_map_snd] at this
    rcases List.mem_map.1 hp' with ⟨en, -, hen⟩
    rw [← hen]
    rfl
  · have hms := keySort_map_snd (fun x : RankedRecord => -(x.total_breaks : Int))
      ((entries.map (buildRecord week_date)).enum)
    rw [List.enum_map_snd] at hms
    unfold get_skus pySliceTo rankedSort
    rw [if_pos hlim, hms]

/-- Witness for C4 on a concrete one-SKU input. -/
theorem C4_witness :
    get_skus demoEntries 3 50 =
      (((rankedSort demoEntries 3).map Prod.snd).map
        (fun x => x.record)).take (50 : Int).toNat :=
  (C4_sku_ranking demoEntries 3 50 (by decide)).2.2.2.2
